import Mathlib

/-!
Verification development for the `solc --standard-json` output stage of a
Solidity-to-bytecode compiler back end (file `src/solc/standard_json/output/mod.rs`).

The `Output` structure and its four operations (`try_to_project`,
`preprocess_ast`, `preprocess_dependencies`, `preprocess_dependency_level`)
are embedded directly from that source file.  Collaborators living outside
that file (the `Assembly` tree, the content hasher, the two dependency
passes, the instruction rewriter, the AST message extractor, the IR
lexer/parser, JSON sub-serializers) are modelled from the specification at
their documented interfaces; each such definition is marked
`Modelled from the spec:`.
-/

set_option autoImplicit false

namespace Solc

/-- Association-list model of Rust's `BTreeMap` insertion: replace the value
when the key is already present, otherwise add the binding.  The maps built
through this operation are only ever read back through `lookupMap`, never
iterated, so the `BTreeMap` key order is unobservable and omitted. -/
def insertMap {α : Type} : List (String × α) → String → α → List (String × α)
  | [], k, v => [(k, v)]
  | (k', v') :: rest, k, v =>
    if k = k' then (k, v) :: rest
    else (k', v') :: insertMap rest k v

/-- Lookup in the association-list model of `BTreeMap`: the first binding of
the key wins (a sorted map has at most one). -/
def lookupMap {α : Type} : List (String × α) → String → Option α
  | [], _ => none
  | (k', v) :: rest, k => if k = k' then some v else lookupMap rest k

/-- Modelled from the spec: one bytecode-assembly element, an opcode plus
operand.  A subset are data-alias instructions, whose operand is initially an
opaque local reference (a raw content hash or an index into the assembly's
own data section); all other instructions are opaque here. -/
inductive Instruction where
  | dataAlias (operand : String)
  | other (opcode : String)

mutual

/-- Modelled from the spec: a `data`-section entry is either a raw byte blob
(carrying the content-hash reference it stands for) or a nested assembly. -/
inductive AsmData where
  | blob (hash : String)
  | subAssembly (asm : Assembly)

/-- Modelled from the spec: the recursive assembly tree of the legacy
pipeline — a settable identity (`full_path`), an optional ordered deployment
code body, and an optional keyed data section. -/
inductive Assembly where
  | mk (full_path : Option String) (code : Option (List Instruction))
      (data : Option (List (String × AsmData)))

end

def Assembly.full_path : Assembly → Option String
  | .mk fp _ _ => fp

def Assembly.code : Assembly → Option (List Instruction)
  | .mk _ c _ => c

def Assembly.data : Assembly → Option (List (String × AsmData))
  | .mk _ _ d => d

/-- Embeds `Assembly::set_full_path`: assign the assembly's identity. -/
def Assembly.set_full_path : Assembly → String → Assembly
  | .mk _ c d, fp => .mk (some fp) c d

mutual

/-- Modelled from the spec: canonical structural serialization backing the
content hasher — it covers `code` and `data` recursively and ignores the
`full_path` identity field, so structurally identical assemblies are encoded
identically regardless of surrounding compilation context. -/
def encodeAssembly : Assembly → String
  | .mk _ c d => "A(" ++ encodeCode c ++ ";" ++ encodeDataSection d ++ ")"

def encodeCode : Option (List Instruction) → String
  | none => "-"
  | some is => encodeInstructions is

def encodeInstructions : List Instruction → String
  | [] => ""
  | .dataAlias r :: rest => "D" ++ r ++ "," ++ encodeInstructions rest
  | .other o :: rest => "O" ++ o ++ "," ++ encodeInstructions rest

def encodeDataSection : Option (List (String × AsmData)) → String
  | none => "-"
  | some es => encodeEntries es

def encodeEntries : List (String × AsmData) → String
  | [] => ""
  | (k, d) :: rest => k ++ "=" ++ encodeDatum d ++ "," ++ encodeEntries rest

def encodeDatum : AsmData → String
  | .blob h => "B" ++ h
  | .subAssembly a => "S" ++ encodeAssembly a

end

/-- Modelled from the spec: the Content Hasher (`Assembly::keccak256`) — a
deterministic digest of the assembly's canonical structure, used only as a
lookup key; modelled by the injective canonical encoding above. -/
def Assembly.keccak256 (a : Assembly) : String :=
  encodeAssembly a

/-- Modelled from the spec: one diagnostic message of the compilation report;
`contractPath` records the originating file path tagged onto it after
extraction. -/
structure SolcError where
  message : String
  contractPath : Option String
deriving DecidableEq

/-- Modelled from the spec: tag a message with its originating file path
(`push_contract_path`). -/
def SolcError.push_contract_path (e : SolcError) (p : String) : SolcError :=
  { e with contractPath := some p }

/-- Modelled from the spec: the AST attached to a source, an external
collaborator whose only consumed capability is diagnostic extraction, which
may fail; modelled as carrying its extraction outcome. -/
structure Ast where
  extraction : Except String (List SolcError)

/-- Modelled from the spec: `ast.get_messages()`, the AST diagnostic
extractor returning a sequence of messages or an error. -/
def Ast.get_messages (a : Ast) : Except String (List SolcError) :=
  a.extraction

/-- Modelled from the spec: one entry of the report's `sources` map,
optionally carrying an AST. -/
structure Source where
  ast : Option Ast

/-- Modelled from the spec: the `evm` sub-object of a contract, of which only
the optional assembly is consumed. -/
structure Evm where
  assembly : Option Assembly

/-- Modelled from the spec: one compiled contract of the report — optional
intermediate-representation text and optional legacy assembly; the remaining
fields are opaque pass-through metadata. -/
structure Contract where
  ir_optimized : Option String
  evm : Option Evm

/-- The chain `contract.evm.as_ref().and_then(|evm| evm.assembly.as_ref())`
used throughout the source. -/
def contractAssembly (c : Contract) : Option Assembly :=
  c.evm.bind (fun e => e.assembly)

/-- Write an updated assembly back through the `evm` sub-object, modelling
the in-place mutation through `evm.assembly.as_mut()`. -/
def setContractAssembly (c : Contract) (a : Assembly) : Contract :=
  { c with evm := c.evm.map (fun e => { e with assembly := some a }) }

/-- The `solc --standard-json` output representation (`Output`), embedded
field by field from the source structure; every field is optional. -/
structure Output where
  contracts : Option (List (String × List (String × Contract)))
  sources : Option (List (String × Source))
  errors : Option (List SolcError)
  version : Option String
  long_version : Option String
  zk_version : Option String

/-- Modelled from the spec: the unresolved-dependency error, naming the
offending hash and the owning contract's fully-qualified path. -/
def unresolvedDependencyError (hash : String) (full_path : String) : String :=
  "Dependency `" ++ hash ++ "` full path not found for contract `" ++ full_path ++ "`"

/-- Modelled from the spec: the content-hash reference an entry stands for —
the raw blob itself, or the content hash of a nested assembly. -/
def dataHash : AsmData → String
  | .blob h => h
  | .subAssembly a => a.keccak256

/-- Modelled from the spec: the shared scan of one data section — every
entry other than the reserved runtime-slot key maps its local key to the
fully-qualified path its hash resolves to in the global map; an unmatched
hash is a fatal unresolved-dependency error, never a silent skip. -/
def scanEntries (full_path : String) (hpm : List (String × String)) :
    List (String × AsmData) → List (String × String) →
    Except String (List (String × String))
  | [], acc => .ok acc
  | (k, d) :: rest, acc =>
    if k = "0" then scanEntries full_path hpm rest acc
    else
      match lookupMap hpm (dataHash d) with
      | none => .error (unresolvedDependencyError (dataHash d) full_path)
      | some p => scanEntries full_path hpm rest (insertMap acc k p)

/-- Modelled from the spec: the deploy pass (`deploy_dependencies_pass`) —
scan the assembly's own data section and build the local index-to-path
mapping. -/
def deployDependenciesPass (a : Assembly) (full_path : String)
    (hpm : List (String × String)) : Except String (List (String × String)) :=
  match a.data with
  | none => .ok []
  | some entries => scanEntries full_path hpm entries []

/-- Modelled from the spec: the runtime pass (`runtime_dependencies_pass`) —
the identical procedure scoped to the nested assembly at the reserved
runtime-slot key `"0"` of `data`, operating on that sub-assembly's own data
section; a no-op when no runtime sub-assembly is present. -/
def runtimeDependenciesPass (a : Assembly) (full_path : String)
    (hpm : List (String × String)) : Except String (List (String × String)) :=
  match a.data.bind (fun d => lookupMap d "0") with
  | some (.subAssembly sub) =>
    match sub.data with
    | none => .ok []
    | some entries => scanEntries full_path hpm entries []
  | _ => .ok []

/-- Modelled from the spec: `Instruction::replace_data_aliases` — replace
every data-alias operand that matches a key of the local mapping with its
resolved path; all other instructions are left untouched. -/
def replaceDataAliases (code : List Instruction) (m : List (String × String)) :
    List Instruction :=
  code.map (fun i =>
    match i with
    | .dataAlias r =>
      match lookupMap m r with
      | some p => .dataAlias p
      | none => .dataAlias r
    | .other o => .other o)

/-- Embeds the deploy-code rewrite of `preprocess_dependency_level` (the
`if let Some(deploy_code_instructions) = assembly.code` block). -/
def rewriteDeployCode (a : Assembly) (m : List (String × String)) : Assembly :=
  match a with
  | .mk fp c d => .mk fp (c.map (fun is => replaceDataAliases is m)) d

/-- Embeds the option chain of the runtime-code rewrite: the code body of the
nested sub-assembly at the reserved runtime-slot key `"0"` of `data`. -/
def getRuntimeCode (a : Assembly) : Option (List Instruction) :=
  (a.data.bind (fun d => lookupMap d "0")).bind (fun e =>
    match e with
    | .subAssembly sub => sub.code
    | .blob _ => none)

/-- Write a rewritten runtime code body back into the sub-assembly at the
reserved runtime-slot key `"0"`. -/
def setRuntimeCode (a : Assembly) (code : List Instruction) : Assembly :=
  match a with
  | .mk fp c d =>
    .mk fp c (d.map (fun entries => entries.map (fun kv =>
      if kv.1 = "0" then
        match kv.2 with
        | .subAssembly (.mk sfp _ sd) => (kv.1, .subAssembly (.mk sfp (some code) sd))
        | .blob b => (kv.1, .blob b)
      else kv)))

/-- Embeds the runtime-code rewrite of `preprocess_dependency_level`: a no-op
when the option chain down to the runtime code body yields nothing. -/
def rewriteRuntimeCode (a : Assembly) (m : List (String × String)) : Assembly :=
  match getRuntimeCode a with
  | none => a
  | some code => setRuntimeCode a (replaceDataAliases code m)

/-- Embeds `preprocess_dependency_level`: assign the identity, run and apply
the deploy pass, then run and apply the runtime pass. -/
def preprocessDependencyLevel (full_path : String) (assembly : Assembly)
    (hpm : List (String × String)) : Except String Assembly :=
  let a1 := assembly.set_full_path full_path
  match deployDependenciesPass a1 full_path hpm with
  | .error e => .error e
  | .ok dm =>
    let a2 := rewriteDeployCode a1 dm
    match runtimeDependenciesPass a2 full_path hpm with
    | .error e => .error e
    | .ok rm => .ok (rewriteRuntimeCode a2 rm)

/-- Flatten the two-level contracts map into its iteration sequence of
(file path, contract name, contract) triples. -/
def flattenPairs (files : List (String × List (String × Contract))) :
    List (String × String × Contract) :=
  files.flatMap (fun pc => pc.2.map (fun nc => (pc.1, nc.1, nc.2)))

/-- One step of the hash-collection loop of `preprocess_dependencies`:
hash the assembly when present and insert `hash -> "path:name"`, skipping
assembly-less contracts. -/
def phase1Step (m : List (String × String)) (pnc : String × String × Contract) :
    List (String × String) :=
  match contractAssembly pnc.2.2 with
  | none => m
  | some a => insertMap m a.keccak256 (pnc.1 ++ ":" ++ pnc.2.1)

/-- Embeds phase 1 of `preprocess_dependencies` (the hash-collection loop):
fold over every (path, name, contract) pair in iteration order. -/
def collectHashes (files : List (String × List (String × Contract))) :
    List (String × String) :=
  (flattenPairs files).foldl phase1Step []

/-- Embeds the inner loop of phase 2 of `preprocess_dependencies` over one
file's contracts: contracts without an assembly pass through unchanged, the
others have their assembly preprocessed in place. -/
def mapContracts (hpm : List (String × String)) (path : String) :
    List (String × Contract) → Except String (List (String × Contract))
  | [] => .ok []
  | (n, c) :: rest =>
    match contractAssembly c with
    | none =>
      match mapContracts hpm path rest with
      | .error e => .error e
      | .ok rest' => .ok ((n, c) :: rest')
    | some a =>
      match preprocessDependencyLevel (path ++ ":" ++ n) a hpm with
      | .error e => .error e
      | .ok a' =>
        match mapContracts hpm path rest with
        | .error e => .error e
        | .ok rest' => .ok ((n, setContractAssembly c a') :: rest')

/-- Embeds the outer loop of phase 2 of `preprocess_dependencies` over the
files map. -/
def mapFiles (hpm : List (String × String)) :
    List (String × List (String × Contract)) →
    Except String (List (String × List (String × Contract)))
  | [] => .ok []
  | (p, cs) :: rest =>
    match mapContracts hpm p cs with
    | .error e => .error e
    | .ok cs' =>
      match mapFiles hpm rest with
      | .error e => .error e
      | .ok rest' => .ok ((p, cs') :: rest')

/-- Embeds `preprocess_dependencies`: a no-op when `contracts` is absent,
otherwise phase 1 (hash collection) followed by phase 2 (per-contract
rewrite in place). -/
def preprocessDependencies (o : Output) : Except String Output :=
  match o.contracts with
  | none => .ok o
  | some files =>
    match mapFiles (collectHashes files) files with
    | .error e => .error e
    | .ok files' => .ok { o with contracts := some files' }

/-- Embeds the message-collection loop of `preprocess_ast`: walk the sources
in order, extract each attached AST's messages, and tag each message with its
originating file path; an extraction failure aborts the whole collection. -/
def collectMessages : List (String × Source) → Except String (List SolcError)
  | [] => .ok []
  | (path, src) :: rest =>
    match src.ast with
    | none => collectMessages rest
    | some ast =>
      match ast.get_messages with
      | .error e => .error e
      | .ok msgs =>
        match collectMessages rest with
        | .error e => .error e
        | .ok restMsgs => .ok (msgs.map (fun m => m.push_contract_path path) ++ restMsgs)

/-- Embeds `preprocess_ast`: a no-op success when `sources` is absent,
otherwise append the collected, path-tagged AST messages to the existing
errors list, creating it when absent. -/
def preprocessAst (o : Output) : Except String Output :=
  match o.sources with
  | none => .ok o
  | some sources =>
    match collectMessages sources with
    | .error e => .error e
    | .ok messages =>
      let newErrors : List SolcError :=
        match o.errors with
        | some errors => errors ++ messages
        | none => messages
      .ok { o with errors := some newErrors }

/-- Modelled from the spec: the parsed intermediate-representation object
produced by the external lexer/parser collaborator. -/
structure Object where
  text : String

/-- Modelled from the spec: `Object::parse` over a fresh lexer, the external
lexer/parser collaborator; its internal parse errors are outside this
development, so the model always succeeds — the fatal-wrapping of a failure
is still embedded at the call site. -/
def Object.parse (ir : String) : Except String Object :=
  .ok { text := ir }

/-- The two front-end pipelines selecting the source-extraction variant. -/
inductive SolcPipeline where
  | yul
  | evmla

/-- The polymorphic per-contract source representation
(`ProjectContractSource`). -/
inductive ProjectContractSource where
  | yul (ir : String) (object : Object)
  | evmla (assembly : Assembly)

/-- One entry of the final project map (`ProjectContract`): the
fully-qualified path, the extracted source, and the originating contract
passed through as metadata. -/
structure ProjectContract where
  path : String
  source : ProjectContractSource
  metadata : Option Contract

/-- The final project artifact (`Project`): compiler version, the
full-path-keyed contract map, and the caller-supplied library table. -/
structure Project where
  version : String
  contracts : List (String × ProjectContract)
  libraries : List (String × List (String × String))

/-- Modelled from the spec: `serde_json::to_string_pretty` over the errors
array — an external serializer, modelled as a concrete deterministic
rendering of the error list. -/
def serdeJsonToStringPretty (errors : List SolcError) : String :=
  "[\n  " ++ String.intercalate ",\n  " (errors.map (fun e => e.message)) ++ "\n]"

/-- Embeds the per-contract body of the extraction loop of `try_to_project`:
`.ok none` is a `continue` (skip), `.ok (some pc)` an insertion, `.error` a
fatal abort. -/
def contractStep (pipeline : SolcPipeline) (path name : String) (c : Contract) :
    Except String (Option ProjectContract) :=
  let full_path := path ++ ":" ++ name
  match pipeline with
  | .yul =>
    match c.ir_optimized with
    | none => .ok none
    | some ir =>
      if ir = "" then .ok none
      else
        match Object.parse ir with
        | .error e => .error ("Contract `" ++ full_path ++ "` parsing error: " ++ e)
        | .ok obj =>
          .ok (some { path := full_path, source := .yul ir obj,
                      metadata := some { c with ir_optimized := none } })
  | .evmla =>
    match contractAssembly c with
    | none => .ok none
    | some a => .ok (some { path := full_path, source := .evmla a, metadata := some c })

/-- Embeds the accumulation of `project_contracts` over the flattened
iteration sequence of `try_to_project`. -/
def insertContracts (pipeline : SolcPipeline) (acc : List (String × ProjectContract)) :
    List (String × String × Contract) → Except String (List (String × ProjectContract))
  | [] => .ok acc
  | (p, n, c) :: rest =>
    match contractStep pipeline p n c with
    | .error e => .error e
    | .ok none => insertContracts pipeline acc rest
    | .ok (some pc) => insertContracts pipeline (insertMap acc (p ++ ":" ++ n) pc) rest

/-- Embeds `try_to_project`: run the dependency preprocessing for the
legacy-assembly pipeline, fail when `contracts` is absent (with the
serialized diagnostics or the generic message), then extract every contract
into the project map. -/
def tryToProject (o : Output) (libraries : List (String × List (String × String)))
    (pipeline : SolcPipeline) (version : String) : Except String Project :=
  match (match pipeline with
         | .evmla => preprocessDependencies o
         | .yul => .ok o) with
  | .error e => .error e
  | .ok o' =>
    match o'.contracts with
    | none =>
      .error
        (match o'.errors with
        | some errors => serdeJsonToStringPretty errors
        | none => "Unknown project assembling error")
    | some files =>
      match insertContracts pipeline [] (flattenPairs files) with
      | .error e => .error e
      | .ok m => .ok { version := version, contracts := m, libraries := libraries }

/-- Modelled from the spec: a JSON wire value of the report object.  The
sub-serializations of the three structured fields are external collaborators
(each nested type carries its own serializer), so they are modelled as opaque
embedded values; the string fields serialize as JSON strings. -/
inductive JValue where
  | contractsVal (v : List (String × List (String × Contract)))
  | sourcesVal (v : List (String × Source))
  | errorsVal (v : List SolcError)
  | strVal (s : String)

/-- Embeds the `Serialize` derivation of `Output` with its
`skip_serializing_if = "Option::is_none"` attributes: a present field emits
exactly one key, an absent field emits nothing. -/
def serializeOutput (o : Output) : List (String × JValue) :=
  (match o.contracts with
   | some v => [("contracts", JValue.contractsVal v)]
   | none => []) ++
  (match o.sources with
   | some v => [("sources", JValue.sourcesVal v)]
   | none => []) ++
  (match o.errors with
   | some v => [("errors", JValue.errorsVal v)]
   | none => []) ++
  (match o.version with
   | some v => [("version", JValue.strVal v)]
   | none => []) ++
  (match o.long_version with
   | some v => [("long_version", JValue.strVal v)]
   | none => []) ++
  (match o.zk_version with
   | some v => [("zk_version", JValue.strVal v)]
   | none => [])

/-- Embeds the `Deserialize` derivation of `Output`: each optional field
reads its key when present and defaults to absence when missing; a field
bound to a wire value of the wrong shape is a type error. -/
def deserializeOutput (j : List (String × JValue)) : Option Output := do
  let contracts ←
    match lookupMap j "contracts" with
    | none => some none
    | some (JValue.contractsVal v) => some (some v)
    | some _ => none
  let sources ←
    match lookupMap j "sources" with
    | none => some none
    | some (JValue.sourcesVal v) => some (some v)
    | some _ => none
  let errors ←
    match lookupMap j "errors" with
    | none => some none
    | some (JValue.errorsVal v) => some (some v)
    | some _ => none
  let version ←
    match lookupMap j "version" with
    | none => some none
    | some (JValue.strVal v) => some (some v)
    | some _ => none
  let long_version ←
    match lookupMap j "long_version" with
    | none => some none
    | some (JValue.strVal v) => some (some v)
    | some _ => none
  let zk_version ←
    match lookupMap j "zk_version" with
    | none => some none
    | some (JValue.strVal v) => some (some v)
    | some _ => none
  some { contracts := contracts, sources := sources, errors := errors,
         version := version, long_version := long_version, zk_version := zk_version }

/-- Follows the spec's words (Phase 1, one pair): a contract without an
assembly contributes nothing; a matching hash overwrites whatever an earlier
pair produced — last write wins. -/
def specPhase1Step (h : String) (acc : Option String) (pnc : String × String × Contract) :
    Option String :=
  match contractAssembly pnc.2.2 with
  | none => acc
  | some a => if a.keccak256 = h then some (pnc.1 ++ ":" ++ pnc.2.1) else acc

/-- Follows the spec's words: the path the HashPathMap associates to a hash
is the one of the last (file, name) pair in iteration order whose present
assembly hashes to it. -/
def specPhase1LastWrite (files : List (String × List (String × Contract)))
    (h : String) : Option String :=
  (flattenPairs files).foldl (specPhase1Step h) none

/-- Follows the spec's words (§9): the project-map entry for a
fully-qualified path is the ProjectContract produced by the last pair in
iteration order that extracts a source under that path — later insertions
silently overwrite earlier ones. -/
def lastProjectEntry (pipeline : SolcPipeline) (k : String) :
    List (String × String × Contract) → Option ProjectContract → Option ProjectContract
  | [], acc => acc
  | (p, n, c) :: rest, acc =>
    lastProjectEntry pipeline k rest
      (match contractStep pipeline p n c with
      | .ok (some pc) => if p ++ ":" ++ n = k then some pc else acc
      | _ => acc)

/-- Follows the spec's words (Diagnostics Aggregator): for every source with
an attached AST, its extracted messages, each tagged with the originating
file path, in source order. -/
def specTaggedMessages : List (String × Source) → List SolcError
  | [] => []
  | (p, s) :: rest =>
    (match s.ast with
    | none => []
    | some a =>
      match a.get_messages with
      | .ok ms => ms.map (fun m => m.push_contract_path p)
      | .error _ => []) ++ specTaggedMessages rest

theorem lookupMap_insertMap {α : Type} (m : List (String × α)) (k : String) (v : α)
    (key : String) :
    lookupMap (insertMap m k v) key = if key = k then some v else lookupMap m key := by
  induction m with
  | nil => simp [insertMap, lookupMap]
  | cons hd tl ih =>
    obtain ⟨k', v'⟩ := hd
    by_cases hkk : k = k'
    · subst hkk
      simp only [insertMap, if_pos rfl, lookupMap]
      by_cases hkey : key = k <;> simp [hkey]
    · simp only [insertMap, if_neg hkk, lookupMap]
      by_cases hkey : key = k'
      · subst hkey
        have hne : ¬(key = k) := fun h => hkk h.symm
        simp [hne]
      · rw [if_neg hkey, ih]
        by_cases hkey2 : key = k <;> simp [hkey2, hkey]

theorem lookupMap_foldl_phase1Step (h : String) (pairs : List (String × String × Contract)) :
    ∀ m : List (String × String),
      lookupMap (pairs.foldl phase1Step m) h = pairs.foldl (specPhase1Step h) (lookupMap m h) := by
  induction pairs with
  | nil => intro m; rfl
  | cons pnc rest ih =>
    intro m
    simp only [List.foldl_cons]
    rw [ih]
    congr 1
    unfold phase1Step specPhase1Step
    cases contractAssembly pnc.2.2 with
    | none => rfl
    | some a =>
      simp only
      rw [lookupMap_insertMap]
      by_cases hk : a.keccak256 = h
      · rw [if_pos hk, if_pos hk.symm]
      · rw [if_neg hk, if_neg (fun hh => hk hh.symm)]

/-- C1: phase 1 of dependency resolution iterates every (file path, contract
name) pair of `contracts`; each contract with a present assembly inserts its
content hash mapped to "file:name", contracts without an assembly contribute
nothing and raise no error, and on hash collisions the last write in
iteration order wins. -/
theorem c1_phase1_hash_collection (files : List (String × List (String × Contract)))
    (h : String) :
    lookupMap (collectHashes files) h = specPhase1LastWrite files h := by
  unfold collectHashes specPhase1LastWrite
  rw [lookupMap_foldl_phase1Step]
  rfl

/-- C7: dependency resolution is deterministic — the content hash of an
assembly is a pure function of its structure, unchanged under repeated
hashing and independent of the assigned identity, and preprocessing the same
report twice yields identical results. -/
theorem c7_determinism (a : Assembly) (fp : String) (o : Output) :
    a.keccak256 = a.keccak256 ∧
    (a.set_full_path fp).keccak256 = a.keccak256 ∧
    preprocessDependencies o = preprocessDependencies o := by
  refine ⟨rfl, ?_, rfl⟩
  cases a with
  | mk ofp c d => rfl

/-- C4: `try_to_project` fails whenever `contracts` is absent, with the
pretty-printed serialization of the errors array when present, and the
generic message otherwise. -/
theorem c4_missing_contracts (o : Output)
    (libraries : List (String × List (String × String))) (pipeline : SolcPipeline)
    (version : String) (h : o.contracts = none) :
    tryToProject o libraries pipeline version =
      .error
        (match o.errors with
        | some errors => serdeJsonToStringPretty errors
        | none => "Unknown project assembling error") := by
  cases pipeline with
  | yul => simp [tryToProject, h]
  | evmla => simp [tryToProject, preprocessDependencies, h]

theorem c4_missing_contracts_witness :
    tryToProject
      { contracts := none, sources := none,
        errors := some [{ message := "boom", contractPath := none }],
        version := none, long_version := none, zk_version := none }
      [] .evmla "1.4.1" =
      .error (serdeJsonToStringPretty [{ message := "boom", contractPath := none }]) ∧
    tryToProject
      { contracts := none, sources := none, errors := none,
        version := none, long_version := none, zk_version := none }
      [] .yul "1.4.1" =
      .error "Unknown project assembling error" :=
  ⟨c4_missing_contracts _ _ _ _ rfl, c4_missing_contracts _ _ _ _ rfl⟩

/-- C10: for a report with `sources` present, a successful `preprocess_ast`
always leaves `errors` present — an absent list is replaced by a (possibly
empty) present one — and every other field of the report is unchanged. -/
theorem c10_errors_created_frame (o o' : Output) (ss : List (String × Source))
    (hs : o.sources = some ss) (h : preprocessAst o = .ok o') :
    o'.errors.isSome = true ∧
    o'.contracts = o.contracts ∧ o'.sources = o.sources ∧
    o'.version = o.version ∧ o'.long_version = o.long_version ∧
    o'.zk_version = o.zk_version := by
  unfold preprocessAst at h
  rw [hs] at h
  simp only at h
  cases hc : collectMessages ss with
  | error e => rw [hc] at h; exact absurd h (by simp)
  | ok messages =>
    rw [hc] at h
    simp only [Except.ok.injEq] at h
    subst h
    simp [hs]

theorem c10_errors_created_frame_witness :
    (Output.errors
      { contracts := none, sources := some [("f.sol", { ast := none })],
        errors := some [], version := some "0.8.21", long_version := none,
        zk_version := none }).isSome = true ∧
    Output.sources
      { contracts := none, sources := some [("f.sol", { ast := none })],
        errors := some [], version := some "0.8.21", long_version := none,
        zk_version := none } =
      some [("f.sol", { ast := none })] :=
  ⟨(c10_errors_created_frame
      { contracts := none, sources := some [("f.sol", { ast := none })],
        errors := none, version := some "0.8.21", long_version := none,
        zk_version := none }
      _ [("f.sol", { ast := none })] rfl rfl).1,
   (c10_errors_created_frame
      { contracts := none, sources := some [("f.sol", { ast := none })],
        errors := none, version := some "0.8.21", long_version := none,
        zk_version := none }
      _ [("f.sol", { ast := none })] rfl rfl).2.2.1⟩

/-- C6: serializing then deserializing a report round-trips structurally, and
every optional field that is absent in the source value emits no key on the
wire — no null-filling. -/
theorem c6_round_trip_no_null_filling (o : Output) :
    deserializeOutput (serializeOutput o) = some o ∧
    lookupMap (serializeOutput o) "contracts" = o.contracts.map JValue.contractsVal ∧
    lookupMap (serializeOutput o) "sources" = o.sources.map JValue.sourcesVal ∧
    lookupMap (serializeOutput o) "errors" = o.errors.map JValue.errorsVal ∧
    lookupMap (serializeOutput o) "version" = o.version.map JValue.strVal ∧
    lookupMap (serializeOutput o) "long_version" = o.long_version.map JValue.strVal ∧
    lookupMap (serializeOutput o) "zk_version" = o.zk_version.map JValue.strVal := by
  obtain ⟨c, s, e, v, l, z⟩ := o
  cases c <;> cases s <;> cases e <;> cases v <;> cases l <;> cases z <;>
    simp [serializeOutput, deserializeOutput, lookupMap, Option.map]

theorem collectMessages_ok_of_extractions (ss : List (String × Source))
    (h : ∀ p s, (p, s) ∈ ss → ∀ a, s.ast = some a → (Ast.get_messages a).isOk = true) :
    collectMessages ss = .ok (specTaggedMessages ss) := by
  induction ss with
  | nil => rfl
  | cons ps rest ih =>
    obtain ⟨p, s⟩ := ps
    have hrest : ∀ p' s', (p', s') ∈ rest → ∀ a, s'.ast = some a →
        (Ast.get_messages a).isOk = true := by
      intro p' s' hmem a ha
      exact h p' s' (List.mem_cons_of_mem _ hmem) a ha
    cases hast : s.ast with
    | none => simp [collectMessages, specTaggedMessages, hast, ih hrest]
    | some a =>
      have hok := h p s (List.mem_cons_self _ _) a hast
      cases hm : a.get_messages with
      | error e => rw [hm] at hok; exact absurd hok (by simp [Except.isOk, Except.toBool])
      | ok ms =>
        simp [collectMessages, specTaggedMessages, hast, hm, ih hrest]

/-- C8: diagnostics aggregation is a no-op success when `sources` is absent;
otherwise, when every attached AST's extraction succeeds, it appends all
extracted messages — each tagged with its originating file path, in source
order — to the report's errors list, creating the list when absent and
preserving the prior errors' order and content. -/
theorem c8_ast_diagnostics_merge (o : Output) :
    (o.sources = none → preprocessAst o = .ok o) ∧
    (∀ ss, o.sources = some ss →
      (∀ p s, (p, s) ∈ ss → ∀ a, s.ast = some a → (Ast.get_messages a).isOk = true) →
      preprocessAst o =
        .ok { o with errors := some (o.errors.getD [] ++ specTaggedMessages ss) }) := by
  constructor
  · intro h
    simp [preprocessAst, h]
  · intro ss hs hall
    cases he : o.errors with
    | none => simp [preprocessAst, hs, collectMessages_ok_of_extractions ss hall, he]
    | some errors => simp [preprocessAst, hs, collectMessages_ok_of_extractions ss hall, he]

/-- Concrete AST model carrying one extractable warning, used only to
exercise the diagnostics aggregation on a closed input. -/
def warnAst : Ast :=
  { extraction := Except.ok [{ message := "warn", contractPath := none }] }

/-- Concrete sources map of the diagnostics-aggregation example. -/
def warnSources : List (String × Source) :=
  [("f.sol", { ast := some warnAst })]

/-- Concrete report of the diagnostics-aggregation example. -/
def warnReport : Output :=
  { contracts := none, sources := some warnSources,
    errors := some [{ message := "old", contractPath := none }],
    version := none, long_version := none, zk_version := none }

/-- Expected merged error list of the diagnostics-aggregation example: the
prior error followed by the extracted message tagged with its file path. -/
def mergedErrors : List SolcError :=
  [{ message := "old", contractPath := none },
   { message := "warn", contractPath := some "f.sol" }]

theorem c8_ast_diagnostics_merge_witness :
    preprocessAst warnReport = .ok { warnReport with errors := some mergedErrors } := by
  have := (c8_ast_diagnostics_merge warnReport).2 warnSources rfl
    (by
      intro p s hmem a ha
      simp only [warnSources, List.mem_singleton, Prod.mk.injEq] at hmem
      rw [hmem.2] at ha
      simp only [Option.some.injEq] at ha
      rw [← ha]
      rfl)
  exact this

theorem insertContracts_ok_lookup (pl : SolcPipeline) (k : String) :
    ∀ (pairs : List (String × String × Contract)) (acc m : List (String × ProjectContract)),
      insertContracts pl acc pairs = .ok m →
      lookupMap m k = lastProjectEntry pl k pairs (lookupMap acc k) := by
  intro pairs
  induction pairs with
  | nil =>
    intro acc m h
    simp only [insertContracts, Except.ok.injEq] at h
    subst h
    rfl
  | cons pnc rest ih =>
    obtain ⟨p, n, c⟩ := pnc
    intro acc m h
    unfold insertContracts at h
    cases hstep : contractStep pl p n c with
    | error e => rw [hstep] at h; exact Except.noConfusion h
    | ok opt =>
      rw [hstep] at h
      cases opt with
      | none =>
        rw [ih acc m h]
        simp only [lastProjectEntry, hstep]
      | some pc =>
        rw [ih (insertMap acc (p ++ ":" ++ n) pc) m h]
        simp only [lastProjectEntry, hstep]
        congr 1
        rw [lookupMap_insertMap]
        by_cases hk : k = p ++ ":" ++ n
        · rw [if_pos hk, if_pos hk.symm]
        · rw [if_neg hk, if_neg (fun hh => hk hh.symm)]

theorem contractStep_skip (p n : String) (c : Contract)
    (h : c.ir_optimized = none ∨ c.ir_optimized = some "") :
    contractStep .yul p n c = .ok none := by
  rcases h with h | h <;> simp [contractStep, h]

theorem lastProjectEntry_of_skips (pl : SolcPipeline) (k : String) :
    ∀ (pairs : List (String × String × Contract)) (acc : Option ProjectContract),
      (∀ p n c, (p, n, c) ∈ pairs → p ++ ":" ++ n = k →
        contractStep pl p n c = .ok none) →
      lastProjectEntry pl k pairs acc = acc := by
  intro pairs
  induction pairs with
  | nil => intro acc _; rfl
  | cons pnc rest ih =>
    obtain ⟨p, n, c⟩ := pnc
    intro acc h
    have hrest : ∀ p' n' c', (p', n', c') ∈ rest → p' ++ ":" ++ n' = k →
        contractStep pl p' n' c' = .ok none := by
      intro p' n' c' hmem
      exact h p' n' c' (List.mem_cons_of_mem _ hmem)
    cases hstep : contractStep pl p n c with
    | error e => simp only [lastProjectEntry, hstep]; exact ih acc hrest
    | ok opt =>
      cases opt with
      | none => simp only [lastProjectEntry, hstep]; exact ih acc hrest
      | some pc =>
        by_cases hfp : p ++ ":" ++ n = k
        · have := h p n c (List.mem_cons_self _ _) hfp
          rw [hstep] at this
          simp at this
        · simp only [lastProjectEntry, hstep, if_neg hfp]
          exact ih acc hrest

theorem insertContracts_remove_skipped (pl : SolcPipeline) (p n : String) (c : Contract)
    (h : contractStep pl p n c = .ok none) :
    ∀ (pre : List (String × String × Contract)) (acc : List (String × ProjectContract))
      (post : List (String × String × Contract)),
      insertContracts pl acc (pre ++ (p, n, c) :: post) =
        insertContracts pl acc (pre ++ post) := by
  intro pre
  induction pre with
  | nil =>
    intro acc post
    simp only [List.nil_append, insertContracts, h]
  | cons hd tl ih =>
    intro acc post
    obtain ⟨p', n', c'⟩ := hd
    simp only [List.cons_append, insertContracts]
    cases hstep : contractStep pl p' n' c' with
    | error e => rfl
    | ok opt =>
      cases opt with
      | none => exact ih acc post
      | some pc => exact ih (insertMap acc (p' ++ ":" ++ n') pc) post

theorem insertContracts_ok_of_steps (pl : SolcPipeline) :
    ∀ (pairs : List (String × String × Contract)) (acc : List (String × ProjectContract)),
      (∀ p n c, (p, n, c) ∈ pairs → (contractStep pl p n c).isOk = true) →
      (insertContracts pl acc pairs).isOk = true := by
  intro pairs
  induction pairs with
  | nil => intro acc _; rfl
  | cons pnc rest ih =>
    obtain ⟨p, n, c⟩ := pnc
    intro acc h
    have hrest : ∀ p' n' c', (p', n', c') ∈ rest →
        (contractStep pl p' n' c').isOk = true := by
      intro p' n' c' hmem
      exact h p' n' c' (List.mem_cons_of_mem _ hmem)
    cases hstep : contractStep pl p n c with
    | error e =>
      have := h p n c (List.mem_cons_self _ _)
      rw [hstep] at this
      simp [Except.isOk, Except.toBool] at this
    | ok opt =>
      cases opt with
      | none => simp only [insertContracts, hstep]; exact ih acc hrest
      | some pc =>
        simp only [insertContracts, hstep]
        exact ih (insertMap acc (p ++ ":" ++ n) pc) hrest

theorem tryToProject_yul_lookup (o : Output) (libs : List (String × List (String × String)))
    (v : String) (proj : Project) (files : List (String × List (String × Contract)))
    (k : String) (h : tryToProject o libs .yul v = .ok proj)
    (hfiles : o.contracts = some files) :
    lookupMap proj.contracts k = lastProjectEntry .yul k (flattenPairs files) none := by
  unfold tryToProject at h
  simp only at h
  rw [hfiles] at h
  simp only at h
  cases hins : insertContracts .yul [] (flattenPairs files) with
  | error e => rw [hins] at h; exact Except.noConfusion h
  | ok m =>
    rw [hins] at h
    simp only [Except.ok.injEq] at h
    subst h
    exact insertContracts_ok_lookup .yul k (flattenPairs files) [] m hins

/-- C9: assembling the project map silently overwrites an earlier
ProjectContract when a later contract produces the same fully-qualified
path — the entry under any key is the one produced by the last matching pair
in iteration order — and duplicate keys never raise an error or warning. -/
theorem c9_duplicate_paths_overwrite :
    (∀ (pl : SolcPipeline) (pairs : List (String × String × Contract))
        (m : List (String × ProjectContract)) (k : String),
      insertContracts pl [] pairs = .ok m →
      lookupMap m k = lastProjectEntry pl k pairs none) ∧
    (∀ (pl : SolcPipeline) (pairs : List (String × String × Contract))
        (acc : List (String × ProjectContract)),
      (∀ p n c, (p, n, c) ∈ pairs → (contractStep pl p n c).isOk = true) →
      (insertContracts pl acc pairs).isOk = true) ∧
    (∀ (o : Output) (libs : List (String × List (String × String))) (v : String)
        (proj : Project) (files : List (String × List (String × Contract))) (k : String),
      tryToProject o libs .yul v = .ok proj → o.contracts = some files →
      lookupMap proj.contracts k = lastProjectEntry .yul k (flattenPairs files) none) := by
  refine ⟨?_, ?_, ?_⟩
  · intro pl pairs m k h
    exact insertContracts_ok_lookup pl k pairs [] m h
  · intro pl pairs acc h
    exact insertContracts_ok_of_steps pl pairs acc h
  · intro o libs v proj files k h hfiles
    exact tryToProject_yul_lookup o libs v proj files k h hfiles

/-- Concrete contracts map in which two distinct (file, name) pairs produce
the same fully-qualified path "a:b:c". -/
def dupFiles : List (String × List (String × Contract)) :=
  [("a", [("b:c", { ir_optimized := some "one", evm := none })]),
   ("a:b", [("c", { ir_optimized := some "two", evm := none })])]

/-- Concrete report of the duplicate-path example. -/
def dupReport : Output :=
  { contracts := some dupFiles, sources := none, errors := none,
    version := none, long_version := none, zk_version := none }

/-- Project entry the later duplicate-path contract produces. -/
def dupEntry : ProjectContract :=
  { path := "a:b:c", source := .yul "two" { text := "two" },
    metadata := some { ir_optimized := none, evm := none } }

/-- Project the duplicate-path example assembles: one entry, the later
contract's. -/
def dupProject : Project :=
  { version := "1.0.0", contracts := [("a:b:c", dupEntry)], libraries := [] }

theorem c9_duplicate_paths_overwrite_witness :
    tryToProject dupReport [] .yul "1.0.0" = .ok dupProject ∧
    lookupMap dupProject.contracts "a:b:c" = some dupEntry := by
  constructor
  · rfl
  · have h := c9_duplicate_paths_overwrite.2.2 dupReport [] "1.0.0" dupProject
      dupFiles "a:b:c" rfl rfl
    rw [h]
    rfl

/-- C5: under the Yul pipeline a contract whose `ir_optimized` is absent or
the empty string is skipped entirely — provided no other contract produces
the same fully-qualified path, the resulting project map has no entry keyed
by that path, and removing the skipped contract from the iteration does not
change the assembled map at all. -/
theorem c5_yul_empty_ir_skip (o : Output) (libs : List (String × List (String × String)))
    (v : String) (proj : Project) (files : List (String × List (String × Contract)))
    (p n : String) (c : Contract)
    (hskip : c.ir_optimized = none ∨ c.ir_optimized = some "")
    (hok : tryToProject o libs .yul v = .ok proj)
    (hfiles : o.contracts = some files)
    (hkey : ∀ p' n' c', (p', n', c') ∈ flattenPairs files →
      p' ++ ":" ++ n' = p ++ ":" ++ n →
      c'.ir_optimized = none ∨ c'.ir_optimized = some "") :
    lookupMap proj.contracts (p ++ ":" ++ n) = none ∧
    (∀ pre acc post, insertContracts .yul acc (pre ++ (p, n, c) :: post) =
      insertContracts .yul acc (pre ++ post)) := by
  constructor
  · rw [tryToProject_yul_lookup o libs v proj files (p ++ ":" ++ n) hok hfiles]
    exact lastProjectEntry_of_skips .yul (p ++ ":" ++ n) (flattenPairs files) none
      (fun p' n' c' hmem heq => contractStep_skip p' n' c' (hkey p' n' c' hmem heq))
  · intro pre acc post
    exact insertContracts_remove_skipped .yul p n c (contractStep_skip p n c hskip) pre acc post

/-- Contract with empty optimized IR: skipped by the Yul pipeline. -/
def skipC : Contract := { ir_optimized := some "", evm := none }

/-- Contract with non-empty optimized IR: extracted by the Yul pipeline. -/
def skipD : Contract := { ir_optimized := some "objD", evm := none }

/-- Concrete contracts map of the empty-IR-skip example. -/
def skipFiles : List (String × List (String × Contract)) :=
  [("f", [("C", skipC), ("D", skipD)])]

/-- Concrete report of the empty-IR-skip example. -/
def skipReport : Output :=
  { contracts := some skipFiles, sources := none, errors := none,
    version := none, long_version := none, zk_version := none }

/-- Project entry produced by the non-skipped contract of the example. -/
def skipEntry : ProjectContract :=
  { path := "f:D", source := .yul "objD" { text := "objD" },
    metadata := some { ir_optimized := none, evm := none } }

/-- Project assembled by the empty-IR-skip example: only the non-skipped
contract appears. -/
def skipProject : Project :=
  { version := "0.1.0", contracts := [("f:D", skipEntry)], libraries := [] }

theorem c5_yul_empty_ir_skip_witness :
    tryToProject skipReport [] .yul "0.1.0" = .ok skipProject ∧
    lookupMap skipProject.contracts ("f" ++ ":" ++ "C") = none ∧
    insertContracts .yul [] ([] ++ ("f", "C", skipC) :: [("f", "D", skipD)]) =
      insertContracts .yul [] ([] ++ [("f", "D", skipD)]) := by
  have hkey : ∀ p' n' c', (p', n', c') ∈ flattenPairs skipFiles →
      p' ++ ":" ++ n' = "f" ++ ":" ++ "C" →
      c'.ir_optimized = none ∨ c'.ir_optimized = some "" := by
    intro p' n' c' hmem heq
    have hflat : flattenPairs skipFiles = [("f", "C", skipC), ("f", "D", skipD)] := rfl
    rw [hflat] at hmem
    simp only [List.mem_cons, List.not_mem_nil, or_false] at hmem
    rcases hmem with h1 | h2
    · injection h1 with hp hrest
      injection hrest with hn hc
      subst hc
      exact Or.inr rfl
    · injection h2 with hp hrest
      injection hrest with hn hc
      subst hp
      subst hn
      exact absurd heq (by decide)
  have h := c5_yul_empty_ir_skip skipReport [] "0.1.0" skipProject skipFiles
    "f" "C" skipC (Or.inr rfl) rfl rfl hkey
  exact ⟨rfl, h.1, h.2 [] [] [("f", "D", skipD)]⟩

theorem set_full_path_full_path (a : Assembly) (fp : String) :
    (a.set_full_path fp).full_path = some fp := by
  cases a
  rfl

theorem rewriteDeployCode_full_path (a : Assembly) (m : List (String × String)) :
    (rewriteDeployCode a m).full_path = a.full_path := by
  cases a
  rfl

theorem setRuntimeCode_full_path (a : Assembly) (code : List Instruction) :
    (setRuntimeCode a code).full_path = a.full_path := by
  cases a
  rfl

theorem rewriteRuntimeCode_full_path (a : Assembly) (m : List (String × String)) :
    (rewriteRuntimeCode a m).full_path = a.full_path := by
  unfold rewriteRuntimeCode
  cases h : getRuntimeCode a with
  | none => rfl
  | some code => exact setRuntimeCode_full_path a (replaceDataAliases code m)

theorem getRuntimeCode_rewriteDeploy (a : Assembly) (fp : String)
    (m : List (String × String)) :
    getRuntimeCode (rewriteDeployCode (a.set_full_path fp) m) = getRuntimeCode a := by
  cases a
  rfl

theorem rewriteRuntimeCode_noop (a : Assembly) (m : List (String × String))
    (h : getRuntimeCode a = none) : rewriteRuntimeCode a m = a := by
  unfold rewriteRuntimeCode
  rw [h]

theorem level_ok_decomp (fp : String) (asm : Assembly) (hpm : List (String × String))
    (a' : Assembly) (h : preprocessDependencyLevel fp asm hpm = .ok a') :
    ∃ dm rm, deployDependenciesPass (asm.set_full_path fp) fp hpm = .ok dm ∧
      runtimeDependenciesPass (rewriteDeployCode (asm.set_full_path fp) dm) fp hpm = .ok rm ∧
      a' = rewriteRuntimeCode (rewriteDeployCode (asm.set_full_path fp) dm) rm := by
  unfold preprocessDependencyLevel at h
  simp only at h
  cases hd : deployDependenciesPass (asm.set_full_path fp) fp hpm with
  | error e => rw [hd] at h; exact Except.noConfusion h
  | ok dm =>
    rw [hd] at h
    simp only at h
    cases hr : runtimeDependenciesPass (rewriteDeployCode (asm.set_full_path fp) dm) fp hpm with
    | error e => rw [hr] at h; exact Except.noConfusion h
    | ok rm =>
      rw [hr] at h
      simp only [Except.ok.injEq] at h
      exact ⟨dm, rm, rfl, hr, h.symm⟩

theorem level_ok_full_path (fp : String) (asm : Assembly) (hpm : List (String × String))
    (a' : Assembly) (h : preprocessDependencyLevel fp asm hpm = .ok a') :
    a'.full_path = some fp := by
  obtain ⟨dm, rm, _, _, ha⟩ := level_ok_decomp fp asm hpm a' h
  rw [ha, rewriteRuntimeCode_full_path, rewriteDeployCode_full_path,
    set_full_path_full_path]

theorem contractAssembly_setContractAssembly (c : Contract) (a a' : Assembly)
    (h : contractAssembly c = some a) :
    contractAssembly (setContractAssembly c a') = some a' := by
  cases hevm : c.evm with
  | none => rw [contractAssembly, hevm] at h; exact Option.noConfusion h
  | some e => simp [contractAssembly, setContractAssembly, hevm]

theorem mapContracts_ok_tagged (hpm : List (String × String)) (p : String) :
    ∀ (cs cs' : List (String × Contract)), mapContracts hpm p cs = .ok cs' →
      ∀ n c', (n, c') ∈ cs' → ∀ a', contractAssembly c' = some a' →
      a'.full_path = some (p ++ ":" ++ n) := by
  intro cs
  induction cs with
  | nil =>
    intro cs' h n c' hmem
    simp only [mapContracts, Except.ok.injEq] at h
    subst h
    exact absurd hmem (List.not_mem_nil _)
  | cons nc rest ih =>
    obtain ⟨n0, c0⟩ := nc
    intro cs' h n c' hmem a' hca
    unfold mapContracts at h
    cases hc0 : contractAssembly c0 with
    | none =>
      rw [hc0] at h
      cases hrest : mapContracts hpm p rest with
      | error e => rw [hrest] at h; exact Except.noConfusion h
      | ok rest' =>
        rw [hrest] at h
        simp only [Except.ok.injEq] at h
        subst h
        rcases List.mem_cons.mp hmem with heq | hmem'
        · injection heq with hn hcc
          subst hcc
          rw [hc0] at hca
          exact Option.noConfusion hca
        · exact ih rest' hrest n c' hmem' a' hca
    | some a0 =>
      rw [hc0] at h
      simp only at h
      cases hlv : preprocessDependencyLevel (p ++ ":" ++ n0) a0 hpm with
      | error e => rw [hlv] at h; exact Except.noConfusion h
      | ok a0' =>
        rw [hlv] at h
        cases hrest : mapContracts hpm p rest with
        | error e => rw [hrest] at h; exact Except.noConfusion h
        | ok rest' =>
          rw [hrest] at h
          simp only [Except.ok.injEq] at h
          subst h
          rcases List.mem_cons.mp hmem with heq | hmem'
          · injection heq with hn hcc
            subst hn
            rw [hcc, contractAssembly_setContractAssembly c0 a0 a0' hc0] at hca
            simp only [Option.some.injEq] at hca
            rw [← hca]
            exact level_ok_full_path _ a0 hpm a0' hlv
          · exact ih rest' hrest n c' hmem' a' hca

theorem mapFiles_ok_tagged (hpm : List (String × String)) :
    ∀ (files files' : List (String × List (String × Contract))),
      mapFiles hpm files = .ok files' →
      ∀ p cs', (p, cs') ∈ files' → ∀ n c', (n, c') ∈ cs' →
      ∀ a', contractAssembly c' = some a' → a'.full_path = some (p ++ ":" ++ n) := by
  intro files
  induction files with
  | nil =>
    intro files' h p cs' hmem
    simp only [mapFiles, Except.ok.injEq] at h
    subst h
    exact absurd hmem (List.not_mem_nil _)
  | cons pcs rest ih =>
    obtain ⟨p0, cs0⟩ := pcs
    intro files' h p cs' hmem n c' hmem' a' hca
    unfold mapFiles at h
    cases hcs : mapContracts hpm p0 cs0 with
    | error e => rw [hcs] at h; exact Except.noConfusion h
    | ok cs0' =>
      rw [hcs] at h
      cases hrest : mapFiles hpm rest with
      | error e => rw [hrest] at h; exact Except.noConfusion h
      | ok rest' =>
        rw [hrest] at h
        simp only [Except.ok.injEq] at h
        subst h
        rcases List.mem_cons.mp hmem with heq | hmemr
        · injection heq with hp hcc
          subst hp
          rw [hcc] at hmem'
          exact mapContracts_ok_tagged hpm p cs0 cs0' hcs n c' hmem' a' hca
        · exact ih rest' hrest p cs' hmemr n c' hmem' a' hca

/-- C2: `preprocess_dependency_level` first assigns the assembly's identity,
completes the deploy-pass resolution and rewrite of the deployment code body
before the runtime pass begins, scopes the runtime rewrite to the nested
sub-assembly at the reserved runtime-slot key "0" of the data section — a
no-op when no runtime sub-assembly or no code in it is present — and the
caller assigns every processed assembly the fully-qualified "file:name"
path. -/
theorem c2_level_ordering :
    (∀ (fp : String) (asm : Assembly) (hpm : List (String × String)) (a' : Assembly),
      preprocessDependencyLevel fp asm hpm = .ok a' →
      a'.full_path = some fp ∧
      (∃ dm rm, deployDependenciesPass (asm.set_full_path fp) fp hpm = .ok dm ∧
        runtimeDependenciesPass (rewriteDeployCode (asm.set_full_path fp) dm) fp hpm = .ok rm ∧
        a' = rewriteRuntimeCode (rewriteDeployCode (asm.set_full_path fp) dm) rm) ∧
      (getRuntimeCode asm = none →
        ∃ dm, deployDependenciesPass (asm.set_full_path fp) fp hpm = .ok dm ∧
          a' = rewriteDeployCode (asm.set_full_path fp) dm)) ∧
    (∀ (o o' : Output) (files' : List (String × List (String × Contract))),
      preprocessDependencies o = .ok o' → o'.contracts = some files' →
      ∀ p cs', (p, cs') ∈ files' → ∀ n c', (n, c') ∈ cs' →
      ∀ a', contractAssembly c' = some a' → a'.full_path = some (p ++ ":" ++ n)) := by
  constructor
  · intro fp asm hpm a' h
    refine ⟨level_ok_full_path fp asm hpm a' h, level_ok_decomp fp asm hpm a' h, ?_⟩
    intro hnone
    obtain ⟨dm, rm, hd, hr, ha⟩ := level_ok_decomp fp asm hpm a' h
    refine ⟨dm, hd, ?_⟩
    rw [ha]
    exact rewriteRuntimeCode_noop _ rm
      ((getRuntimeCode_rewriteDeploy asm fp dm).trans hnone)
  · intro o o' files' h hcontracts p cs' hmem n c' hmem' a' hca
    unfold preprocessDependencies at h
    cases hoc : o.contracts with
    | none =>
      rw [hoc] at h
      simp only [Except.ok.injEq] at h
      subst h
      rw [hoc] at hcontracts
      exact Option.noConfusion hcontracts
    | some files =>
      rw [hoc] at h
      simp only at h
      cases hmf : mapFiles (collectHashes files) files with
      | error e => rw [hmf] at h; exact Except.noConfusion h
      | ok files'' =>
        rw [hmf] at h
        simp only [Except.ok.injEq] at h
        subst h
        simp only [Output.contracts, Option.some.injEq] at hcontracts
        rw [← hcontracts] at hmem
        exact mapFiles_ok_tagged (collectHashes files) files files'' hmf p cs' hmem
          n c' hmem' a' hca

/-- Runtime sub-assembly of the two-pass example: one data-alias instruction
and one blob dependency. -/
def subW : Assembly :=
  .mk none (some [Instruction.dataAlias "1"]) (some [("1", AsmData.blob "hB")])

/-- Top-level assembly of the two-pass example: deploy code with a data
alias, a runtime sub-assembly at key "0", and a blob dependency at key "1". -/
def asmW : Assembly :=
  .mk none (some [Instruction.dataAlias "1", Instruction.other "PUSH"])
    (some [("0", AsmData.subAssembly subW), ("1", AsmData.blob "hB")])

/-- Global hash-path map of the two-pass example. -/
def hpmW : List (String × String) := [("hB", "B.sol:B")]

/-- Expected fully-resolved assembly of the two-pass example: identity
assigned, both code bodies rewritten to the resolved path. -/
def resW : Assembly :=
  .mk (some "A.sol:A")
    (some [Instruction.dataAlias "B.sol:B", Instruction.other "PUSH"])
    (some [("0", AsmData.subAssembly
        (.mk none (some [Instruction.dataAlias "B.sol:B"]) (some [("1", AsmData.blob "hB")]))),
      ("1", AsmData.blob "hB")])

/-- Code-less plain assembly used for the caller-level part of the two-pass
example. -/
def asmPlain : Assembly := .mk none (some []) none

/-- Contract wrapping the plain assembly. -/
def cW2 : Contract := { ir_optimized := none, evm := some { assembly := some asmPlain } }

/-- The plain assembly after preprocessing: only the identity changed. -/
def asmPlainRes : Assembly := .mk (some "A.sol:A") (some []) none

/-- The wrapped contract after preprocessing. -/
def cW2Res : Contract :=
  { ir_optimized := none, evm := some { assembly := some asmPlainRes } }

/-- Report of the caller-level example. -/
def oW2 : Output :=
  { contracts := some [("A.sol", [("A", cW2)])], sources := none, errors := none,
    version := none, long_version := none, zk_version := none }

/-- Report of the caller-level example after preprocessing. -/
def oW2Res : Output :=
  { contracts := some [("A.sol", [("A", cW2Res)])], sources := none, errors := none,
    version := none, long_version := none, zk_version := none }

theorem c2_level_ordering_witness :
    preprocessDependencyLevel "A.sol:A" asmW hpmW = .ok resW ∧
    resW.full_path = some "A.sol:A" ∧
    preprocessDependencies oW2 = .ok oW2Res ∧
    asmPlainRes.full_path = some ("A.sol" ++ ":" ++ "A") := by
  refine ⟨rfl, ?_, rfl, ?_⟩
  · exact (c2_level_ordering.1 "A.sol:A" asmW hpmW resW rfl).1
  · exact c2_level_ordering.2 oW2 oW2Res [("A.sol", [("A", cW2Res)])] rfl rfl
      "A.sol" [("A", cW2Res)] (List.mem_singleton.mpr rfl)
      "A" cW2Res (List.mem_singleton.mpr rfl) asmPlainRes rfl

theorem mem_flattenPairs (files : List (String × List (String × Contract)))
    (p n : String) (c : Contract) :
    (p, n, c) ∈ flattenPairs files ↔ ∃ cs, (p, cs) ∈ files ∧ (n, c) ∈ cs := by
  unfold flattenPairs
  rw [List.mem_flatMap]
  constructor
  · rintro ⟨⟨p0, cs0⟩, hmem, hmap⟩
    rw [List.mem_map] at hmap
    obtain ⟨⟨n0, c0⟩, hmem0, heq⟩ := hmap
    injection heq with hp hrest
    injection hrest with hn hc
    subst hp
    subst hn
    subst hc
    exact ⟨cs0, hmem, hmem0⟩
  · rintro ⟨cs, hmem, hmem'⟩
    exact ⟨(p, cs), hmem, List.mem_map.mpr ⟨(n, c), hmem', rfl⟩⟩

theorem scanEntries_error_shape (fp : String) (hpm : List (String × String)) :
    ∀ (entries : List (String × AsmData)) (acc : List (String × String)) (e : String),
      scanEntries fp hpm entries acc = .error e →
      ∃ h, e = unresolvedDependencyError h fp ∧ lookupMap hpm h = none := by
  intro entries
  induction entries with
  | nil => intro acc e h; exact Except.noConfusion h
  | cons kd rest ih =>
    obtain ⟨k, d⟩ := kd
    intro acc e h
    unfold scanEntries at h
    by_cases hk : k = "0"
    · rw [if_pos hk] at h
      exact ih _ e h
    · rw [if_neg hk] at h
      cases hl : lookupMap hpm (dataHash d) with
      | none =>
        rw [hl] at h
        simp only [Except.error.injEq] at h
        exact ⟨dataHash d, h.symm, hl⟩
      | some pth =>
        rw [hl] at h
        exact ih _ e h

theorem deployPass_error_shape (a : Assembly) (fp : String)
    (hpm : List (String × String)) (e : String)
    (h : deployDependenciesPass a fp hpm = .error e) :
    ∃ hh, e = unresolvedDependencyError hh fp ∧ lookupMap hpm hh = none := by
  unfold deployDependenciesPass at h
  cases hd : a.data with
  | none => rw [hd] at h; exact Except.noConfusion h
  | some entries => rw [hd] at h; exact scanEntries_error_shape fp hpm entries [] e h

theorem runtimePass_error_shape (a : Assembly) (fp : String)
    (hpm : List (String × String)) (e : String)
    (h : runtimeDependenciesPass a fp hpm = .error e) :
    ∃ hh, e = unresolvedDependencyError hh fp ∧ lookupMap hpm hh = none := by
  unfold runtimeDependenciesPass at h
  cases hd : a.data.bind (fun d => lookupMap d "0") with
  | none => rw [hd] at h; exact Except.noConfusion h
  | some entry =>
    rw [hd] at h
    cases entry with
    | blob b => exact Except.noConfusion h
    | subAssembly sub =>
      simp only at h
      cases hsd : sub.data with
      | none => rw [hsd] at h; exact Except.noConfusion h
      | some entries => rw [hsd] at h; exact scanEntries_error_shape fp hpm entries [] e h

theorem level_error_shape (fp : String) (asm : Assembly) (hpm : List (String × String))
    (e : String) (h : preprocessDependencyLevel fp asm hpm = .error e) :
    ∃ hh, e = unresolvedDependencyError hh fp ∧ lookupMap hpm hh = none := by
  unfold preprocessDependencyLevel at h
  simp only at h
  cases hd : deployDependenciesPass (asm.set_full_path fp) fp hpm with
  | error e' =>
    rw [hd] at h
    simp only [Except.error.injEq] at h
    subst h
    exact deployPass_error_shape _ fp hpm _ hd
  | ok dm =>
    rw [hd] at h
    simp only at h
    cases hr : runtimeDependenciesPass (rewriteDeployCode (asm.set_full_path fp) dm) fp hpm with
    | error e' =>
      rw [hr] at h
      simp only [Except.error.injEq] at h
      subst h
      exact runtimePass_error_shape _ fp hpm _ hr
    | ok rm => rw [hr] at h; exact Except.noConfusion h

theorem mapContracts_error_loc (hpm : List (String × String)) (p : String) :
    ∀ (cs : List (String × Contract)) (e : String), mapContracts hpm p cs = .error e →
      ∃ n c a, (n, c) ∈ cs ∧ contractAssembly c = some a ∧
        preprocessDependencyLevel (p ++ ":" ++ n) a hpm = .error e := by
  intro cs
  induction cs with
  | nil => intro e h; exact Except.noConfusion h
  | cons nc rest ih =>
    obtain ⟨n0, c0⟩ := nc
    intro e h
    unfold mapContracts at h
    cases hc0 : contractAssembly c0 with
    | none =>
      rw [hc0] at h
      simp only at h
      cases hrest : mapContracts hpm p rest with
      | error e' =>
        rw [hrest] at h
        simp only [Except.error.injEq] at h
        subst h
        obtain ⟨n, c, a, hm, hca, hlv⟩ := ih _ hrest
        exact ⟨n, c, a, List.mem_cons_of_mem _ hm, hca, hlv⟩
      | ok rest' => rw [hrest] at h; exact Except.noConfusion h
    | some a0 =>
      rw [hc0] at h
      simp only at h
      cases hlv : preprocessDependencyLevel (p ++ ":" ++ n0) a0 hpm with
      | error e' =>
        rw [hlv] at h
        simp only [Except.error.injEq] at h
        subst h
        exact ⟨n0, c0, a0, List.mem_cons_self _ _, hc0, hlv⟩
      | ok a0' =>
        rw [hlv] at h
        simp only at h
        cases hrest : mapContracts hpm p rest with
        | error e' =>
          rw [hrest] at h
          simp only [Except.error.injEq] at h
          subst h
          obtain ⟨n, c, a, hm, hca, hlv2⟩ := ih _ hrest
          exact ⟨n, c, a, List.mem_cons_of_mem _ hm, hca, hlv2⟩
        | ok rest' => rw [hrest] at h; exact Except.noConfusion h

theorem mapFiles_error_loc (hpm : List (String × String)) :
    ∀ (files : List (String × List (String × Contract))) (e : String),
      mapFiles hpm files = .error e →
      ∃ p cs n c a, (p, cs) ∈ files ∧ (n, c) ∈ cs ∧ contractAssembly c = some a ∧
        preprocessDependencyLevel (p ++ ":" ++ n) a hpm = .error e := by
  intro files
  induction files with
  | nil => intro e h; exact Except.noConfusion h
  | cons pcs rest ih =>
    obtain ⟨p0, cs0⟩ := pcs
    intro e h
    unfold mapFiles at h
    cases hcs : mapContracts hpm p0 cs0 with
    | error e' =>
      rw [hcs] at h
      simp only [Except.error.injEq] at h
      subst h
      obtain ⟨n, c, a, hm, hca, hlv⟩ := mapContracts_error_loc hpm p0 cs0 _ hcs
      exact ⟨p0, cs0, n, c, a, List.mem_cons_self _ _, hm, hca, hlv⟩
    | ok cs0' =>
      rw [hcs] at h
      simp only at h
      cases hrest : mapFiles hpm rest with
      | error e' =>
        rw [hrest] at h
        simp only [Except.error.injEq] at h
        subst h
        obtain ⟨p, cs, n, c, a, hmf, hm, hca, hlv⟩ := ih _ hrest
        exact ⟨p, cs, n, c, a, List.mem_cons_of_mem _ hmf, hm, hca, hlv⟩
      | ok rest' => rw [hrest] at h; exact Except.noConfusion h

theorem mapContracts_ok_levels (hpm : List (String × String)) (p : String) :
    ∀ (cs cs' : List (String × Contract)), mapContracts hpm p cs = .ok cs' →
      ∀ n c, (n, c) ∈ cs → ∀ a, contractAssembly c = some a →
      (preprocessDependencyLevel (p ++ ":" ++ n) a hpm).isOk = true := by
  intro cs
  induction cs with
  | nil => intro cs' _ n c hmem; exact absurd hmem (List.not_mem_nil _)
  | cons nc rest ih =>
    obtain ⟨n0, c0⟩ := nc
    intro cs' h n c hmem a hca
    unfold mapContracts at h
    cases hc0 : contractAssembly c0 with
    | none =>
      rw [hc0] at h
      simp only at h
      cases hrest : mapContracts hpm p rest with
      | error e => rw [hrest] at h; exact Except.noConfusion h
      | ok rest' =>
        rcases List.mem_cons.mp hmem with heq | hmem'
        · injection heq with hn hcc
          subst hn
          rw [hcc] at hca
          rw [hc0] at hca
          exact Option.noConfusion hca
        · exact ih rest' hrest n c hmem' a hca
    | some a0 =>
      rw [hc0] at h
      simp only at h
      cases hlv : preprocessDependencyLevel (p ++ ":" ++ n0) a0 hpm with
      | error e => rw [hlv] at h; exact Except.noConfusion h
      | ok a0' =>
        cases hrest : mapContracts hpm p rest with
        | error e => rw [hlv, hrest] at h; exact Except.noConfusion h
        | ok rest' =>
          rcases List.mem_cons.mp hmem with heq | hmem'
          · injection heq with hn hcc
            subst hn
            rw [hcc] at hca
            rw [hc0] at hca
            simp only [Option.some.injEq] at hca
            subst hca
            rw [hlv]
            rfl
          · exact ih rest' hrest n c hmem' a hca

theorem mapFiles_ok_levels (hpm : List (String × String)) :
    ∀ (files : List (String × List (String × Contract)))
      (files' : List (String × List (String × Contract))),
      mapFiles hpm files = .ok files' →
      ∀ p cs, (p, cs) ∈ files → ∀ n c, (n, c) ∈ cs → ∀ a, contractAssembly c = some a →
      (preprocessDependencyLevel (p ++ ":" ++ n) a hpm).isOk = true := by
  intro files
  induction files with
  | nil => intro files' _ p cs hmem; exact absurd hmem (List.not_mem_nil _)
  | cons pcs rest ih =>
    obtain ⟨p0, cs0⟩ := pcs
    intro files' h p cs hmem n c hmem' a hca
    unfold mapFiles at h
    cases hcs : mapContracts hpm p0 cs0 with
    | error e => rw [hcs] at h; exact Except.noConfusion h
    | ok cs0' =>
      cases hrest : mapFiles hpm rest with
      | error e => rw [hcs, hrest] at h; exact Except.noConfusion h
      | ok rest' =>
        rcases List.mem_cons.mp hmem with heq | hmemr
        · injection heq with hp hcc
          subst hp
          rw [hcc] at hmem'
          exact mapContracts_ok_levels hpm p cs0 cs0' hcs n c hmem' a hca
        · exact ih rest' hrest p cs hmemr n c hmem' a hca

/-- C3: an unmatched content hash during either dependency pass fails
resolution with an unresolved-dependency error naming the offending hash and
the owning contract's fully-qualified path, and such a failure aborts the
whole resolution over all contracts: a successful resolution implies every
contract's pass succeeded, and a failed resolution pins the error to an
unmatched hash of some contract. -/
theorem c3_unresolved_dependency_aborts :
    (∀ (fp : String) (asm : Assembly) (hpm : List (String × String)) (e : String),
      preprocessDependencyLevel fp asm hpm = .error e →
      ∃ h, e = unresolvedDependencyError h fp ∧ lookupMap hpm h = none) ∧
    (∀ (o o' : Output) (files : List (String × List (String × Contract))),
      preprocessDependencies o = .ok o' → o.contracts = some files →
      ∀ p n c, (p, n, c) ∈ flattenPairs files → ∀ a, contractAssembly c = some a →
      (preprocessDependencyLevel (p ++ ":" ++ n) a (collectHashes files)).isOk = true) ∧
    (∀ (o : Output) (e : String), preprocessDependencies o = .error e →
      ∃ files p n c a h, o.contracts = some files ∧ (p, n, c) ∈ flattenPairs files ∧
        contractAssembly c = some a ∧ e = unresolvedDependencyError h (p ++ ":" ++ n) ∧
        lookupMap (collectHashes files) h = none) := by
  refine ⟨level_error_shape, ?_, ?_⟩
  · intro o o' files h hfiles p n c hmem a hca
    unfold preprocessDependencies at h
    rw [hfiles] at h
    simp only at h
    cases hmf : mapFiles (collectHashes files) files with
    | error e => rw [hmf] at h; exact Except.noConfusion h
    | ok files'' =>
      obtain ⟨cs, hmemf, hmemc⟩ := (mem_flattenPairs files p n c).mp hmem
      exact mapFiles_ok_levels (collectHashes files) files files'' hmf p cs hmemf
        n c hmemc a hca
  · intro o e h
    unfold preprocessDependencies at h
    cases hoc : o.contracts with
    | none => rw [hoc] at h; exact Except.noConfusion h
    | some files =>
      rw [hoc] at h
      simp only at h
      cases hmf : mapFiles (collectHashes files) files with
      | ok files'' => rw [hmf] at h; exact Except.noConfusion h
      | error e' =>
        rw [hmf] at h
        simp only [Except.error.injEq] at h
        subst h
        obtain ⟨p, cs, n, c, a, hmemf, hmemc, hca, hlv⟩ :=
          mapFiles_error_loc (collectHashes files) files _ hmf
        obtain ⟨hh, he, hl⟩ := level_error_shape _ a _ _ hlv
        exact ⟨files, p, n, c, a, hh, rfl,
          (mem_flattenPairs files p n c).mpr ⟨cs, hmemf, hmemc⟩, hca, he, hl⟩

/-- Assembly with an unresolvable blob dependency "dead". -/
def asmB : Assembly := .mk none none (some [("1", AsmData.blob "dead")])

/-- Contract owning the unresolvable assembly. -/
def cB : Contract := { ir_optimized := none, evm := some { assembly := some asmB } }

/-- Contracts map of the unresolved-dependency example. -/
def filesB : List (String × List (String × Contract)) := [("f", [("C", cB)])]

/-- Report of the unresolved-dependency example. -/
def oB : Output :=
  { contracts := some filesB, sources := none, errors := none,
    version := none, long_version := none, zk_version := none }

/-- Code-less assembly whose hash another contract references. -/
def asmG1 : Assembly := .mk none (some []) none

/-- Contract owning the referenced assembly. -/
def cG1 : Contract := { ir_optimized := none, evm := some { assembly := some asmG1 } }

/-- Assembly whose data section references the other contract's hash. -/
def asmG2 : Assembly := .mk none none (some [("1", AsmData.blob "A(;-)")])

/-- Contract owning the referencing assembly. -/
def cG2 : Contract := { ir_optimized := none, evm := some { assembly := some asmG2 } }

/-- Contracts map of the resolvable example. -/
def filesG : List (String × List (String × Contract)) :=
  [("f", [("C1", cG1), ("C2", cG2)])]

/-- Report of the resolvable example. -/
def oG : Output :=
  { contracts := some filesG, sources := none, errors := none,
    version := none, long_version := none, zk_version := none }

/-- The referenced assembly after preprocessing: identity assigned. -/
def asmG1Res : Assembly := .mk (some "f:C1") (some []) none

/-- The referenced contract after preprocessing. -/
def cG1Res : Contract :=
  { ir_optimized := none, evm := some { assembly := some asmG1Res } }

/-- The referencing assembly after preprocessing: identity assigned. -/
def asmG2Res : Assembly := .mk (some "f:C2") none (some [("1", AsmData.blob "A(;-)")])

/-- The referencing contract after preprocessing. -/
def cG2Res : Contract :=
  { ir_optimized := none, evm := some { assembly := some asmG2Res } }

/-- Report of the resolvable example after preprocessing. -/
def oGRes : Output :=
  { contracts := some [("f", [("C1", cG1Res), ("C2", cG2Res)])], sources := none,
    errors := none, version := none, long_version := none, zk_version := none }

theorem c3_unresolved_dependency_aborts_witness :
    preprocessDependencies oB = .error (unresolvedDependencyError "dead" "f:C") ∧
    (∃ h, unresolvedDependencyError "dead" "f:C" = unresolvedDependencyError h "f:C" ∧
      lookupMap (collectHashes filesB) h = none) ∧
    preprocessDependencies oG = .ok oGRes ∧
    (preprocessDependencyLevel ("f" ++ ":" ++ "C2") asmG2 (collectHashes filesG)).isOk
      = true := by
  refine ⟨rfl, ?_, rfl, ?_⟩
  · exact c3_unresolved_dependency_aborts.1 "f:C" asmB (collectHashes filesB)
      (unresolvedDependencyError "dead" "f:C") rfl
  · have hflat : flattenPairs filesG = [("f", "C1", cG1), ("f", "C2", cG2)] := rfl
    exact c3_unresolved_dependency_aborts.2.1 oG oGRes filesG rfl rfl "f" "C2" cG2
      (hflat ▸ List.mem_cons_of_mem _ (List.mem_singleton.mpr rfl)) asmG2 rfl

end Solc
